import Mathlib

/-!
# Verification of the IG Reels Resolver core (`src/app.py`)

A shallow embedding of the pure/decision logic of `src/app.py`:

* the cookie-header translator (lines 59–69 / 86–95),
* the `og:video` metadata extractor `_extract_og_video` (lines 39–42),
* the fast-path fetch status logic `_http_get` (lines 44–52),
* the resolution orchestrator `resolve_direct_mp4` (lines 137–160),
* the scroll-and-harvest reel collector `_playwright_collect_reels`
  (lines 80–130), modelled over the sequence of href batches the page
  yields at each round,
* an event-trace model of browser-session acquisition and release for
  both Playwright-driven functions.

Network, browser and OS effects are inputs to the embedded functions
(response outcomes, rendered HTML, per-round href batches, failure
points); everything else follows the Python control flow line by line.
-/

namespace ReelsResolver

/-! ## Reel link canonicalization and the harvest loop

Python (lines 108–116):
```
for href in hrefs:
    if "/reel/" not in href:
        continue
    if not href.endswith("/"):
        href = href + "/"
    if href not in seen:
        seen.add(href); new += 1
        if max_count and len(seen) >= max_count:
            break
```
The Python `set` is modelled as a duplicate-free list in insertion
order; `sorted(seen)` at the end makes the representation order
irrelevant to the output.
-/

/-- Python whitespace class (`str.strip()` and `\s` in `re`), ASCII
part; the repository only ever meets ASCII whitespace. -/
def isPySpace (c : Char) : Bool :=
  c = ' ' || c = '\t' || c = '\n' || c = '\r' || c = '\x0b' || c = '\x0c'

/-- Python `s.strip()`: drop whitespace from both ends. -/
def pyStrip (s : List Char) : List Char :=
  ((s.dropWhile isPySpace).reverse.dropWhile isPySpace).reverse

/-- Python `s.split(sep)` for a single-character separator (the only
kind the source uses: `";"`, `"="`, `"/"`, `"?"`).  Never returns the
empty list. -/
def splitChar (sep : Char) : List Char → List (List Char)
  | [] => [[]]
  | c :: rest =>
    if c = sep then [] :: splitChar sep rest
    else
      match splitChar sep rest with
      | [] => [[c]]
      | g :: gs => (c :: g) :: gs

/-- Python `s.endswith("/")`. -/
def endsWithSlash (s : List Char) : Bool :=
  match s.getLast? with
  | some c => c = '/'
  | none => false

/-- `occursIn needle hay`: `needle` occurs as a contiguous substring of
`hay` (Python's `needle in hay` on strings), over character lists. -/
def occursIn (needle : List Char) : List Char → Bool
  | [] => needle.isEmpty
  | c :: rest => needle.isPrefixOf (c :: rest) || occursIn needle rest

/-- Python `"/reel/" in href` (substring test, lines 104 and 109). -/
def hasReelMarker (href : String) : Bool :=
  occursIn ( "/reel/").toList href.toList

/-- Canonicalize a reel href: append a trailing `/` when absent
(lines 111–112). -/
def canonReel (href : String) : String :=
  if endsWithSlash href.toList then href else href ++ "/"

/-- Python truthiness of `max_count and len(seen) >= max_count`:
`None` and `0` are falsy, so no cap applies in those cases
(lines 115 and 117). -/
def capReached (max_count : Option Int) (n : Nat) : Bool :=
  match max_count with
  | none => false
  | some m => m ≠ 0 && m ≤ (n : Int)

/-- One pass of the inner `for href in hrefs` loop: returns the updated
`seen` list, the `new` counter, and whether the loop `break`-ed early on
the cap. -/
def harvest (max_count : Option Int) (seen : List String) (new : Nat) :
    List String → List String × Nat × Bool
  | [] => (seen, new, false)
  | href :: rest =>
    if hasReelMarker href then
      if canonReel href ∈ seen then harvest max_count seen new rest
      else if capReached max_count (seen ++ [canonReel href]).length then
        (seen ++ [canonReel href], new + 1, true)
      else harvest max_count (seen ++ [canonReel href]) (new + 1) rest
    else harvest max_count seen new rest

/-- Outcome of the `while True` loop when driven by a finite list of
per-round href batches: either the loop `break`-ed (`done`) with the
final `seen` list, or the supplied rounds ran out while the loop would
still continue (`ranOut`, carrying the live state). -/
inductive CollectOutcome where
  | done (seen : List String)
  | ranOut (seen : List String) (idle : Nat)
  deriving DecidableEq, Repr

/-- The `while True` loop of `_playwright_collect_reels`
(lines 101–126) with `idle_limit = 15`, driven by the list of href
batches the page yields at successive rounds. -/
def collectLoop (max_count : Option Int) (seen : List String) (idle : Nat) :
    List (List String) → CollectOutcome
  | [] => .ranOut seen idle
  | hrefs :: rest =>
    let h := harvest max_count seen 0 hrefs
    if capReached max_count h.1.length then .done h.1
    else
      let idle' := if h.2.1 = 0 then idle + 1 else 0
      if 15 ≤ idle' then .done h.1
      else collectLoop max_count h.1 idle' rest

/-- `return sorted(seen)` (line 130): lexicographic sort of the
collected set. -/
def collectOutput (seen : List String) : List String :=
  seen.insertionSort (· ≤ ·)

/-! ## Cookie translator

Python (lines 59–67 and 86–93, identical in both functions):
```
for part in cookie_header.split(";"):
    part = part.strip()
    if "=" not in part:
        continue
    name, value = part.split("=", 1)
    cookies.append(dict(name=name.strip(), value=value.strip(),
                        domain=".instagram.com", path="/"))
```
-/

/-- One browser cookie record as built by the source. -/
structure CookieRecord where
  name : String
  value : String
  domain : String
  path : String
  deriving DecidableEq, Repr

/-- Translate one `;`-delimited fragment: trim, drop when it has no
`=`, otherwise split on the first `=` only (Python `part.split("=", 1)`:
the name is everything before the first `=`, the value everything after
it, so values may themselves contain `=`). -/
def parseCookieFragment (part : List Char) : Option CookieRecord :=
  let p := pyStrip part
  if p.contains '=' then
    let name := p.takeWhile (fun c => c ≠ '=')
    let value := p.drop (name.length + 1)
    some ⟨⟨pyStrip name⟩, ⟨pyStrip value⟩, ".instagram.com", "/"⟩
  else none

/-- The whole cookie-header translation: split on `;`, translate each
fragment, keep the successes in order. -/
def parseCookies (cookie_header : String) : List CookieRecord :=
  (splitChar ';' cookie_header.toList).filterMap parseCookieFragment

/-! ## Metadata extractor

Python (lines 39–42):
```
m = re.search(r'<meta\s+property="og:video"\s+content="([^"]+)"',
              html, flags=re.I)
return m.group(1) if m else None
```
The regex is linear (no alternation), and every `\s+` and `([^"]+)` is
followed by a character outside its own class, so greedy matching with
no backtracking is exact. `re.search` returns the leftmost match. -/

/-- Case-insensitive literal match (the effect of `re.I` on the literal
parts of the pattern); returns the remaining input on success. -/
def matchLit : List Char → List Char → Option (List Char)
  | [], rest => some rest
  | _ :: _, [] => none
  | p :: ps, c :: cs => if c.toLower = p.toLower then matchLit ps cs else none

/-- `\s+`: at least one whitespace character, consumed greedily. -/
def matchSpaces (cs : List Char) : Option (List Char) :=
  match cs with
  | c :: rest => if isPySpace c then some (rest.dropWhile isPySpace) else none
  | [] => none

/-- Attempt the whole pattern at the current position; on success
return the capture group `([^"]+)`. -/
def ogVideoAt (cs : List Char) : Option (List Char) :=
  (matchLit ( "<meta").toList cs).bind fun r1 =>
  (matchSpaces r1).bind fun r2 =>
  (matchLit ( "property=\"og:video\"").toList r2).bind fun r3 =>
  (matchSpaces r3).bind fun r4 =>
  (matchLit ( "content=\"").toList r4).bind fun r5 =>
    let cap := r5.takeWhile (fun c => c ≠ '"')
    match cap, r5.drop cap.length with
    | _ :: _, '"' :: _ => some cap
    | _, _ => none

/-- `re.search`: try the pattern at each position, leftmost first. -/
def ogVideoSearch : List Char → Option (List Char)
  | [] => none
  | c :: rest =>
    match ogVideoAt (c :: rest) with
    | some cap => some cap
    | none => ogVideoSearch rest

/-- `_extract_og_video` (lines 39–42). -/
def extract_og_video (html : String) : Option String :=
  (ogVideoSearch html.toList).map fun cs => ⟨cs⟩

/-! ## Fast-path fetch and the resolution orchestrator

`_http_get` (lines 44–52) raises `HTTPException` when the upstream
status is ≥ 400 and lets `httpx` transport errors propagate; both are
caught by the `except` arms in `resolve_direct_mp4` (lines 148–152).
The network outcome is an input to the model. -/

/-- What the wire produced for the fast-path GET. -/
inductive HttpResponse where
  | transportFailure
  | response (status : Nat) (body : String)
  deriving DecidableEq, Repr

/-- Result of `_http_get` as seen by its caller. -/
inductive HttpResult where
  | ok (body : String)
  | upstreamError (status : Nat)
  | transportError
  deriving DecidableEq, Repr

/-- `_http_get` (lines 44–52): status ≥ 400 raises, otherwise the body
text is returned. -/
def http_get : HttpResponse → HttpResult
  | .transportFailure => .transportError
  | .response status body =>
    if 400 ≤ status then .upstreamError status else .ok body

/-- The `ResolveOut` response model (lines 21–25). -/
structure ResolveOut where
  reel_url : String
  mp4_url : Option String
  filename : Option String
  title : Option String
  deriving DecidableEq, Repr

/-- A call of the `/resolve` endpoint either returns a `ResolveOut` or
raises (`HTTPException` 502, or a propagated engine failure). -/
inductive ResolveResult where
  | ok (out : ResolveOut)
  | error (detail : String)
  deriving DecidableEq, Repr

/-- Filename suggestion (lines 146–147 and 159–160):
`vid_id = mp4.split("/")[-1].split("?")[0]` then `f"..."` appends the
`.mp4` suffix to `vid_id`. -/
def suggestedFilename (mp4 : String) : String :=
  let vid_id :=
    (splitChar '?' ((splitChar '/' mp4.toList).getLastD [])).headD []
  (⟨vid_id⟩ : String) ++ ".mp4"

/-- `resolve_direct_mp4` (lines 137–160). Inputs: the fast-path network
outcome and the rendered-path outcome (`Except` navigation failure of
`_playwright_fetch_html`, or its rendered HTML). The second component
counts how many times the rendered-page resolver was invoked. -/
def resolve_direct_mp4 (reel_url : String) (fastResponse : HttpResponse)
    (rendered : Except Unit String) : ResolveResult × Nat :=
  let fastMp4 : Option String :=
    match http_get fastResponse with
    | .ok html => extract_og_video html
    | _ => none
  match fastMp4 with
  | some mp4 =>
    (.ok ⟨reel_url, some mp4, some (suggestedFilename mp4), none⟩, 0)
  | none =>
    match rendered with
    | .error _ => (.error "navigation failure", 1)
    | .ok html2 =>
      match extract_og_video html2 with
      | some mp42 =>
        (.ok ⟨reel_url, some mp42, some (suggestedFilename mp42), none⟩, 1)
      | none => (.error "Could not resolve mp4_url from reel page", 1)

/-! ## Browser-session lifecycle traces

Both Playwright functions run inside `with sync_playwright() as p:`;
Python guarantees the context manager's teardown (`p.stop()`, which
shuts down the driver and releases every browser/context it still
owns) on every exit from the block, normal or exceptional.  The
explicit `context.close(); browser.close()` calls sit on the success
path only (lines 76–77 and 128–129).  We record the sequence of engine
events a run emits — parametrised by where (if anywhere) the engine
raises — and account session opens/releases over that trace. -/

/-- Engine events emitted by the two Playwright functions. -/
inductive BrowserEv where
  | launch | newContext | addCookies | newPage | goto | wait | content
  | evalLinks | scroll | closeContext | closeBrowser | stop
  deriving DecidableEq, Repr

/-- Exit paths of `_playwright_fetch_html`: success, `page.goto`
timeout/failure, or failure of the `page.content()` engine call. -/
inductive FetchExit where
  | success | gotoFailure | contentFailure
  deriving DecidableEq, Repr

/-- Events common to both functions up to `page.goto` (lines 55–71 /
83–97). -/
def sessionSetup (has_cookies : Bool) : List BrowserEv :=
  [.launch, .newContext] ++ (if has_cookies then [.addCookies] else []) ++
    [.newPage]

/-- Event trace of `_playwright_fetch_html` (lines 54–78) on each exit
path; the trailing `stop` is the `with`-block teardown. -/
def fetchTrace (has_cookies : Bool) (path : FetchExit) : List BrowserEv :=
  sessionSetup has_cookies ++
    (match path with
     | .gotoFailure => [.goto]
     | .contentFailure => [.goto, .wait, .content]
     | .success => [.goto, .wait, .content, .closeContext, .closeBrowser]) ++
    [.stop]

/-- Exit paths of `_playwright_collect_reels`: success after `k` full
scroll rounds, `page.goto` failure, or an engine failure at the
harvest-eval or the scroll of round `k`. -/
inductive CollectExit where
  | success (k : Nat)
  | gotoFailure
  | evalFailure (k : Nat)
  | scrollFailure (k : Nat)
  deriving DecidableEq, Repr

/-- Engine events of one full loop round (lines 103–126): harvest
eval, scroll, settle wait.  No session event occurs inside a round. -/
def roundEvs : List BrowserEv := [.evalLinks, .scroll, .wait]

/-- Event trace of `_playwright_collect_reels` (lines 83–129) on each
exit path. -/
def collectTrace (has_cookies : Bool) (path : CollectExit) : List BrowserEv :=
  (match path with
   | .gotoFailure => sessionSetup has_cookies ++ [.goto]
   | .success k =>
     sessionSetup has_cookies ++ [.goto, .wait] ++
       (List.replicate k roundEvs).flatten ++
       [.evalLinks, .closeContext, .closeBrowser]
   | .evalFailure k =>
     sessionSetup has_cookies ++ [.goto, .wait] ++
       (List.replicate k roundEvs).flatten ++ [.evalLinks]
   | .scrollFailure k =>
     sessionSetup has_cookies ++ [.goto, .wait] ++
       (List.replicate k roundEvs).flatten ++ [.evalLinks, .scroll]) ++
    [.stop]

/-- Session accounting: which resources are open, how often each was
released, and whether any close acted on an already-closed resource. -/
structure SessionState where
  ctxOpen : Bool
  browserOpen : Bool
  ctxReleases : Nat
  browserReleases : Nat
  closeOnClosed : Bool
  deriving DecidableEq, Repr

/-- All closed, nothing released yet. -/
def initSession : SessionState := ⟨false, false, 0, 0, false⟩

/-- Effect of one event on the session state.  `stop` (driver
teardown) releases whatever is still open; an explicit close of an
already-closed resource is flagged as a double close. -/
def sessionStep (s : SessionState) : BrowserEv → SessionState
  | .launch => { s with browserOpen := true }
  | .newContext => { s with ctxOpen := true }
  | .closeContext =>
    if s.ctxOpen then
      { s with ctxOpen := false, ctxReleases := s.ctxReleases + 1 }
    else { s with closeOnClosed := true }
  | .closeBrowser =>
    if s.browserOpen then
      { s with browserOpen := false, browserReleases := s.browserReleases + 1 }
    else { s with closeOnClosed := true }
  | .stop =>
    let s1 :=
      if s.ctxOpen then
        { s with ctxOpen := false, ctxReleases := s.ctxReleases + 1 }
      else s
    if s1.browserOpen then
      { s1 with browserOpen := false,
                browserReleases := s1.browserReleases + 1 }
    else s1
  | _ => s

/-- A trace releases the session exactly once: at its end the context
and the browser were each released exactly once, nothing stays open,
and no close ever hit an already-closed resource. -/
def releasedExactlyOnce (tr : List BrowserEv) : Bool :=
  let s := tr.foldl sessionStep initSession
  s.ctxReleases == 1 && s.browserReleases == 1 &&
    !s.ctxOpen && !s.browserOpen && !s.closeOnClosed

/-- The `seen` list carried by either loop outcome. -/
def outcomeSeen : CollectOutcome → List String
  | .done s => s
  | .ranOut s _ => s

/-! ## Supporting lemmas -/

theorem capReached_some (k : Int) (n : Nat) :
    capReached (some k) n = (decide (k ≠ 0) && decide (k ≤ (n : Int))) := rfl

theorem capReached_false_iff (k : Int) (hk : k ≠ 0) (n : Nat) :
    capReached (some k) n = false ↔ (n : Int) < k := by
  simp [capReached_some, hk]

theorem capReached_true_iff (k : Int) (hk : k ≠ 0) (n : Nat) :
    capReached (some k) n = true ↔ k ≤ (n : Int) := by
  simp [capReached_some, hk]

theorem harvest_nil (m : Option Int) (seen : List String) (new : Nat) :
    harvest m seen new [] = (seen, new, false) := rfl

theorem harvest_cons (m : Option Int) (seen : List String) (new : Nat)
    (href : String) (rest : List String) :
    harvest m seen new (href :: rest) =
      if hasReelMarker href then
        if canonReel href ∈ seen then harvest m seen new rest
        else if capReached m (seen ++ [canonReel href]).length then
          (seen ++ [canonReel href], new + 1, true)
        else harvest m (seen ++ [canonReel href]) (new + 1) rest
      else harvest m seen new rest := rfl

theorem harvest_new_mono (m : Option Int) (hrefs : List String) :
    ∀ (seen : List String) (new : Nat), new ≤ (harvest m seen new hrefs).2.1 := by
  induction hrefs with
  | nil => intro seen new; exact Nat.le_refl _
  | cons href rest ih =>
    intro seen new
    rw [harvest_cons]
    by_cases h1 : hasReelMarker href
    · rw [if_pos h1]
      by_cases h2 : canonReel href ∈ seen
      · rw [if_pos h2]; exact ih seen new
      · rw [if_neg h2]
        by_cases h3 : capReached m (seen ++ [canonReel href]).length = true
        · rw [if_pos h3]; exact Nat.le_succ new
        · rw [if_neg h3]; exact Nat.le_trans (Nat.le_succ new) (ih _ _)
    · rw [if_neg h1]; exact ih seen new

theorem harvest_stay (m : Option Int) (hrefs : List String) :
    ∀ (seen : List String) (new : Nat), (harvest m seen new hrefs).2.1 = new →
      harvest m seen new hrefs = (seen, new, false) := by
  induction hrefs with
  | nil => intro seen new _; rfl
  | cons href rest ih =>
    intro seen new h
    rw [harvest_cons] at h ⊢
    by_cases h1 : hasReelMarker href
    · rw [if_pos h1] at h ⊢
      by_cases h2 : canonReel href ∈ seen
      · rw [if_pos h2] at h ⊢; exact ih seen new h
      · rw [if_neg h2] at h ⊢
        by_cases h3 : capReached m (seen ++ [canonReel href]).length = true
        · rw [if_pos h3] at h
          exact absurd h (Nat.ne_of_gt (Nat.lt_succ_self new))
        · rw [if_neg h3] at h
          have := harvest_new_mono m rest (seen ++ [canonReel href]) (new + 1)
          omega
    · rw [if_neg h1] at h ⊢; exact ih seen new h

theorem harvest_break_append (m : Option Int) (hrefs : List String) :
    ∀ (extra seen : List String) (new : Nat),
      (harvest m seen new hrefs).2.2 = true →
      harvest m seen new (hrefs ++ extra) = harvest m seen new hrefs := by
  induction hrefs with
  | nil => intro extra seen new h; rw [harvest_nil] at h; exact absurd h (by simp)
  | cons href rest ih =>
    intro extra seen new h
    rw [harvest_cons] at h
    rw [List.cons_append, harvest_cons, harvest_cons]
    by_cases h1 : hasReelMarker href
    · rw [if_pos h1] at h
      simp only [if_pos h1]
      by_cases h2 : canonReel href ∈ seen
      · rw [if_pos h2] at h
        simp only [if_pos h2]
        exact ih extra seen new h
      · rw [if_neg h2] at h
        simp only [if_neg h2]
        by_cases h3 : capReached m (seen ++ [canonReel href]).length = true
        · simp only [if_pos h3]
        · rw [if_neg h3] at h
          simp only [if_neg h3]
          exact ih extra _ _ h
    · rw [if_neg h1] at h
      simp only [if_neg h1]
      exact ih extra seen new h

theorem harvest_cap_exact (k : Int) (hk : 0 < k) (hrefs : List String) :
    ∀ (seen : List String) (new : Nat),
      (seen.length : Int) < k →
      k ≤ ((harvest (some k) seen new hrefs).1.length : Int) →
      ((harvest (some k) seen new hrefs).1.length : Int) = k ∧
        (harvest (some k) seen new hrefs).2.2 = true := by
  induction hrefs with
  | nil =>
    intro seen new hlt hge
    rw [harvest_nil] at hge
    exact ((not_le.mpr hlt) hge).elim
  | cons href rest ih =>
    intro seen new hlt hge
    rw [harvest_cons] at hge ⊢
    by_cases h1 : hasReelMarker href
    · rw [if_pos h1] at hge
      simp only [if_pos h1]
      by_cases h2 : canonReel href ∈ seen
      · rw [if_pos h2] at hge
        simp only [if_pos h2]
        exact ih seen new hlt hge
      · rw [if_neg h2] at hge
        simp only [if_neg h2]
        by_cases h3 : capReached (some k) (seen ++ [canonReel href]).length = true
        · simp only [if_pos h3] at hge ⊢
          have hle := (capReached_true_iff k (by omega) _).mp h3
          refine ⟨?_, by trivial⟩
          show ((seen ++ [canonReel href]).length : Int) = k
          have hlen : (seen ++ [canonReel href]).length = seen.length + 1 := by
            simp
          rw [hlen] at hle ⊢
          push_cast at hle ⊢
          omega
        · rw [if_neg h3] at hge
          simp only [if_neg h3]
          have h3f : capReached (some k) (seen ++ [canonReel href]).length = false := by
            simpa using h3
          exact ih _ _ ((capReached_false_iff k (by omega) _).mp h3f) hge
    · rw [if_neg h1] at hge
      simp only [if_neg h1]
      exact ih seen new hlt hge

theorem harvest_length_le (k : Int) (hk : 0 < k) (hrefs : List String) :
    ∀ (seen : List String) (new : Nat), (seen.length : Int) < k →
      ((harvest (some k) seen new hrefs).1.length : Int) ≤ k := by
  induction hrefs with
  | nil => intro seen new hlt; exact le_of_lt hlt
  | cons href rest ih =>
    intro seen new hlt
    rw [harvest_cons]
    by_cases h1 : hasReelMarker href
    · simp only [if_pos h1]
      by_cases h2 : canonReel href ∈ seen
      · simp only [if_pos h2]; exact ih seen new hlt
      · simp only [if_neg h2]
        by_cases h3 : capReached (some k) (seen ++ [canonReel href]).length = true
        · simp only [if_pos h3]
          show ((seen ++ [canonReel href]).length : Int) ≤ k
          have hlen : (seen ++ [canonReel href]).length = seen.length + 1 := by
            simp
          rw [hlen]
          push_cast
          omega
        · simp only [if_neg h3]
          have h3f : capReached (some k) (seen ++ [canonReel href]).length = false := by
            simpa using h3
          exact ih _ _ ((capReached_false_iff k (by omega) _).mp h3f)
    · simp only [if_neg h1]; exact ih seen new hlt

theorem harvest_nodup (m : Option Int) (hrefs : List String) :
    ∀ (seen : List String) (new : Nat), seen.Nodup →
      (harvest m seen new hrefs).1.Nodup := by
  induction hrefs with
  | nil => intro seen new hs; exact hs
  | cons href rest ih =>
    intro seen new hs
    rw [harvest_cons]
    by_cases h1 : hasReelMarker href
    · simp only [if_pos h1]
      by_cases h2 : canonReel href ∈ seen
      · simp only [if_pos h2]; exact ih seen new hs
      · simp only [if_neg h2]
        have hs' : (seen ++ [canonReel href]).Nodup := by
          rw [← List.concat_eq_append]
          exact hs.concat h2
        by_cases h3 : capReached m (seen ++ [canonReel href]).length = true
        · simp only [if_pos h3]; exact hs'
        · simp only [if_neg h3]; exact ih _ _ hs'
    · simp only [if_neg h1]; exact ih seen new hs

theorem harvest_mem (m : Option Int) (hrefs : List String) :
    ∀ (seen : List String) (new : Nat) (x : String),
      x ∈ (harvest m seen new hrefs).1 →
      x ∈ seen ∨ ∃ y, y ∈ hrefs ∧ hasReelMarker y = true ∧ canonReel y = x := by
  induction hrefs with
  | nil => intro seen new x hx; exact Or.inl hx
  | cons href rest ih =>
    intro seen new x hx
    rw [harvest_cons] at hx
    by_cases h1 : hasReelMarker href
    · rw [if_pos h1] at hx
      by_cases h2 : canonReel href ∈ seen
      · rw [if_pos h2] at hx
        rcases ih seen new x hx with h | ⟨y, hy, hm, hc⟩
        · exact Or.inl h
        · exact Or.inr ⟨y, List.mem_cons_of_mem _ hy, hm, hc⟩
      · rw [if_neg h2] at hx
        by_cases h3 : capReached m (seen ++ [canonReel href]).length = true
        · rw [if_pos h3] at hx
          rcases List.mem_append.mp hx with h | h
          · exact Or.inl h
          · exact Or.inr ⟨href, List.mem_cons_self _ _, h1,
              (List.mem_singleton.mp h).symm⟩
        · rw [if_neg h3] at hx
          rcases ih _ _ x hx with h | ⟨y, hy, hm, hc⟩
          · rcases List.mem_append.mp h with h | h
            · exact Or.inl h
            · exact Or.inr ⟨href, List.mem_cons_self _ _, h1,
                (List.mem_singleton.mp h).symm⟩
          · exact Or.inr ⟨y, List.mem_cons_of_mem _ hy, hm, hc⟩
    · rw [if_neg h1] at hx
      rcases ih seen new x hx with h | ⟨y, hy, hm, hc⟩
      · exact Or.inl h
      · exact Or.inr ⟨y, List.mem_cons_of_mem _ hy, hm, hc⟩

theorem collectLoop_nil (m : Option Int) (s : List String) (i : Nat) :
    collectLoop m s i [] = .ranOut s i := rfl

theorem collectLoop_cons (m : Option Int) (s : List String) (i : Nat)
    (hrefs : List String) (rest : List (List String)) :
    collectLoop m s i (hrefs :: rest) =
      if capReached m (harvest m s 0 hrefs).1.length then
        .done (harvest m s 0 hrefs).1
      else if 15 ≤ (if (harvest m s 0 hrefs).2.1 = 0 then i + 1 else 0) then
        .done (harvest m s 0 hrefs).1
      else collectLoop m (harvest m s 0 hrefs).1
        (if (harvest m s 0 hrefs).2.1 = 0 then i + 1 else 0) rest := rfl

theorem collectLoop_append_ranOut (m : Option Int) (xs : List (List String)) :
    ∀ (ys : List (List String)) (s : List String) (i : Nat)
      (t : List String) (j : Nat),
      collectLoop m s i xs = .ranOut t j →
      collectLoop m s i (xs ++ ys) = collectLoop m t j ys := by
  induction xs with
  | nil =>
    intro ys s i t j h
    injection h with h1 h2
    rw [List.nil_append, h1, h2]
  | cons hrefs rest ih =>
    intro ys s i t j h
    rw [collectLoop_cons] at h
    rw [List.cons_append, collectLoop_cons]
    by_cases hc : capReached m (harvest m s 0 hrefs).1.length = true
    · rw [if_pos hc] at h; exact CollectOutcome.noConfusion h
    · rw [if_neg hc] at h
      simp only [if_neg hc]
      by_cases hi : 15 ≤ (if (harvest m s 0 hrefs).2.1 = 0 then i + 1 else 0)
      · rw [if_pos hi] at h; exact CollectOutcome.noConfusion h
      · rw [if_neg hi] at h
        simp only [if_neg hi]
        exact ih ys _ _ t j h

theorem collectLoop_append_done (m : Option Int) (xs : List (List String)) :
    ∀ (ys : List (List String)) (s : List String) (i : Nat) (t : List String),
      collectLoop m s i xs = .done t →
      collectLoop m s i (xs ++ ys) = .done t := by
  induction xs with
  | nil => intro ys s i t h; exact CollectOutcome.noConfusion h
  | cons hrefs rest ih =>
    intro ys s i t h
    rw [collectLoop_cons] at h
    rw [List.cons_append, collectLoop_cons]
    by_cases hc : capReached m (harvest m s 0 hrefs).1.length = true
    · rw [if_pos hc] at h; simp only [if_pos hc]; exact h
    · rw [if_neg hc] at h
      simp only [if_neg hc]
      by_cases hi : 15 ≤ (if (harvest m s 0 hrefs).2.1 = 0 then i + 1 else 0)
      · rw [if_pos hi] at h; simp only [if_pos hi]; exact h
      · rw [if_neg hi] at h
        simp only [if_neg hi]
        exact ih ys _ _ t h

theorem collectLoop_ranOut_cap (m : Option Int) (xs : List (List String)) :
    ∀ (s : List String) (i : Nat) (t : List String) (j : Nat),
      collectLoop m s i xs = .ranOut t j →
      (t = s ∧ j = i) ∨ capReached m t.length = false := by
  induction xs with
  | nil =>
    intro s i t j h
    injection h with h1 h2
    exact Or.inl ⟨h1.symm, h2.symm⟩
  | cons hrefs rest ih =>
    intro s i t j h
    rw [collectLoop_cons] at h
    by_cases hc : capReached m (harvest m s 0 hrefs).1.length = true
    · rw [if_pos hc] at h; exact CollectOutcome.noConfusion h
    · rw [if_neg hc] at h
      by_cases hi : 15 ≤ (if (harvest m s 0 hrefs).2.1 = 0 then i + 1 else 0)
      · rw [if_pos hi] at h; exact CollectOutcome.noConfusion h
      · rw [if_neg hi] at h
        rcases ih _ _ t j h with ⟨h1, _⟩ | h2
        · subst h1
          exact Or.inr (by simpa using hc)
        · exact Or.inr h2

theorem collect_nodup (m : Option Int) (xs : List (List String)) :
    ∀ (s : List String) (i : Nat), s.Nodup →
      (outcomeSeen (collectLoop m s i xs)).Nodup := by
  induction xs with
  | nil => intro s i hs; exact hs
  | cons hrefs rest ih =>
    intro s i hs
    rw [collectLoop_cons]
    by_cases hc : capReached m (harvest m s 0 hrefs).1.length = true
    · simp only [if_pos hc]; exact harvest_nodup m hrefs s 0 hs
    · simp only [if_neg hc]
      by_cases hi : 15 ≤ (if (harvest m s 0 hrefs).2.1 = 0 then i + 1 else 0)
      · simp only [if_pos hi]; exact harvest_nodup m hrefs s 0 hs
      · simp only [if_neg hi]; exact ih _ _ (harvest_nodup m hrefs s 0 hs)

theorem collect_mem (m : Option Int) (xs : List (List String)) :
    ∀ (s : List String) (i : Nat) (x : String),
      x ∈ outcomeSeen (collectLoop m s i xs) →
      x ∈ s ∨ ∃ y, y ∈ xs.flatten ∧ hasReelMarker y = true ∧ canonReel y = x := by
  induction xs with
  | nil => intro s i x hx; exact Or.inl hx
  | cons hrefs rest ih =>
    intro s i x hx
    rw [collectLoop_cons] at hx
    have step : x ∈ (harvest m s 0 hrefs).1 →
        x ∈ s ∨ ∃ y, y ∈ (hrefs :: rest).flatten ∧ hasReelMarker y = true ∧
          canonReel y = x := by
      intro hmem
      rcases harvest_mem m hrefs s 0 x hmem with h | ⟨y, hy, hm, hcn⟩
      · exact Or.inl h
      · exact Or.inr ⟨y, by
          rw [List.flatten_cons]
          exact List.mem_append.mpr (Or.inl hy), hm, hcn⟩
    by_cases hc : capReached m (harvest m s 0 hrefs).1.length = true
    · rw [if_pos hc] at hx; exact step hx
    · rw [if_neg hc] at hx
      by_cases hi : 15 ≤ (if (harvest m s 0 hrefs).2.1 = 0 then i + 1 else 0)
      · rw [if_pos hi] at hx; exact step hx
      · rw [if_neg hi] at hx
        rcases ih _ _ x hx with h | ⟨y, hy, hm, hcn⟩
        · exact step h
        · exact Or.inr ⟨y, by
            rw [List.flatten_cons]
            exact List.mem_append.mpr (Or.inr hy), hm, hcn⟩

theorem collect_length_le (k : Int) (hk : 0 < k) (xs : List (List String)) :
    ∀ (s : List String) (i : Nat), (s.length : Int) < k →
      ((outcomeSeen (collectLoop (some k) s i xs)).length : Int) ≤ k := by
  induction xs with
  | nil => intro s i hlt; exact le_of_lt hlt
  | cons hrefs rest ih =>
    intro s i hlt
    rw [collectLoop_cons]
    have hle := harvest_length_le k hk hrefs s 0 hlt
    by_cases hc : capReached (some k) (harvest (some k) s 0 hrefs).1.length = true
    · simp only [if_pos hc]; exact hle
    · simp only [if_neg hc]
      have hlt' : (((harvest (some k) s 0 hrefs).1.length : Int)) < k :=
        (capReached_false_iff k (by omega) _).mp (by simpa using hc)
      by_cases hi : 15 ≤ (if (harvest (some k) s 0 hrefs).2.1 = 0 then i + 1 else 0)
      · simp only [if_pos hi]; exact hle
      · simp only [if_neg hi]; exact ih _ _ hlt'

theorem collect_idle_run (m : Option Int) (seen : List String)
    (xs : List (List String)) :
    ∀ (rest : List (List String)) (idle : Nat), xs ≠ [] →
      idle + xs.length = 15 →
      (∀ r ∈ xs, (harvest m seen 0 r).2.1 = 0) →
      capReached m seen.length = false →
      collectLoop m seen idle (xs ++ rest) = .done seen := by
  induction xs with
  | nil => intro rest idle hne _ _ _; exact absurd rfl hne
  | cons hrefs rst ih =>
    intro rest idle _ hlen hidle hcap
    have hh : harvest m seen 0 hrefs = (seen, 0, false) :=
      harvest_stay m hrefs seen 0 (hidle hrefs (List.mem_cons_self _ _))
    rw [List.cons_append, collectLoop_cons, hh]
    rw [if_neg (by simpa using hcap)]
    have h0 : (if ((seen, 0, false) : List String × Nat × Bool).2.1 = 0
        then idle + 1 else 0) = idle + 1 := if_pos rfl
    rw [h0]
    cases rst with
    | nil =>
      have : idle + 1 = 15 := by simpa using hlen
      rw [if_pos (by omega)]
    | cons r2 rst2 =>
      have hlen2 : idle + 1 + (r2 :: rst2).length = 15 := by
        simpa [Nat.add_comm, Nat.add_assoc, Nat.add_left_comm] using hlen
      rw [if_neg (by
        have : (r2 :: rst2).length = rst2.length + 1 := rfl
        omega)]
      exact ih rest (idle + 1) (by simp) hlen2
        (fun r hr => hidle r (List.mem_cons_of_mem _ hr)) hcap

theorem foldl_roundEvs (k : Nat) :
    ∀ (s : SessionState),
      (List.replicate k roundEvs).flatten.foldl sessionStep s = s := by
  induction k with
  | zero => intro s; rfl
  | succ n ih =>
    intro s
    rw [List.replicate_succ, List.flatten_cons, List.foldl_append]
    exact ih _

theorem resolve_ok_inv (url : String) (resp : HttpResponse)
    (rendered : Except Unit String) (out : ResolveOut)
    (h : (resolve_direct_mp4 url resp rendered).1 = .ok out) :
    ∃ mp4, out = ⟨url, some mp4, some (suggestedFilename mp4), none⟩ := by
  cases hg : http_get resp with
  | ok body =>
    cases he : extract_og_video body with
    | some mp4 =>
      simp only [resolve_direct_mp4, hg, he] at h
      injection h with hh
      exact ⟨mp4, hh.symm⟩
    | none =>
      cases hr : rendered with
      | error e =>
        simp only [resolve_direct_mp4, hg, he, hr] at h
        exact ResolveResult.noConfusion h
      | ok html2 =>
        cases he2 : extract_og_video html2 with
        | some mp42 =>
          simp only [resolve_direct_mp4, hg, he, hr, he2] at h
          injection h with hh
          exact ⟨mp42, hh.symm⟩
        | none =>
          simp only [resolve_direct_mp4, hg, he, hr, he2] at h
          exact ResolveResult.noConfusion h
  | upstreamError st =>
    cases hr : rendered with
    | error e =>
      simp only [resolve_direct_mp4, hg, hr] at h
      exact ResolveResult.noConfusion h
    | ok html2 =>
      cases he2 : extract_og_video html2 with
      | some mp42 =>
        simp only [resolve_direct_mp4, hg, hr, he2] at h
        injection h with hh
        exact ⟨mp42, hh.symm⟩
      | none =>
        simp only [resolve_direct_mp4, hg, hr, he2] at h
        exact ResolveResult.noConfusion h
  | transportError =>
    cases hr : rendered with
    | error e =>
      simp only [resolve_direct_mp4, hg, hr] at h
      exact ResolveResult.noConfusion h
    | ok html2 =>
      cases he2 : extract_og_video html2 with
      | some mp42 =>
        simp only [resolve_direct_mp4, hg, hr, he2] at h
        injection h with hh
        exact ⟨mp42, hh.symm⟩
      | none =>
        simp only [resolve_direct_mp4, hg, hr, he2] at h
        exact ResolveResult.noConfusion h

/-! ## The claims -/

/-- C7: the metadata extractor returns the content value of the first
`og:video` meta marker, matching case-insensitively: on the claim's
example document it returns the declared URL, on a case-varied copy of
the marker it returns the same URL, on a document with no marker it
returns absence (being a total function it never errors), and with two
markers present it returns the first one's content. -/
theorem c7_extract_og_video :
    extract_og_video "<meta property=\"og:video\" content=\"https://x/y.mp4\">" =
      some "https://x/y.mp4" ∧
    extract_og_video "<META Property=\"OG:Video\" Content=\"https://x/y.mp4\">" =
      some "https://x/y.mp4" ∧
    extract_og_video "<html><body>no marker here</body></html>" = none ∧
    extract_og_video
        "<meta property=\"og:video\" content=\"first.mp4\"><meta property=\"og:video\" content=\"second.mp4\">" =
      some "first.mp4" := by
  refine ⟨?_, ?_, ?_, ?_⟩ <;> decide

/-- C6: the cookie translator never fails, splits on `;`, trims
whitespace, discards fragments without `=`, splits on the first `=`
only; its output count is at most the number of `;`-delimited
fragments, and on `"a=1; b=2=x"` it yields exactly the records
`a ↦ 1` and `b ↦ 2=x` with the fixed domain and path constants. -/
theorem c6_cookie_translator :
    (∀ header : String,
      (parseCookies header).length ≤ (splitChar ';' header.toList).length) ∧
    (∀ part : List Char, (pyStrip part).contains '=' = false →
      parseCookieFragment part = none) ∧
    parseCookies "a=1; b=2=x" =
      [⟨ "a", "1", ".instagram.com", "/"⟩,
       ⟨ "b", "2=x", ".instagram.com", "/"⟩] := by
  refine ⟨?_, ?_, by decide⟩
  · intro header
    exact List.length_filterMap_le _ _
  · intro part h
    have h2 : '=' ∉ pyStrip part := by simpa using h
    simp [parseCookieFragment, h2]

/-- C6 witness: a fragment whose trimmed form has no `=` is dropped. -/
theorem c6_cookie_translator_witness :
    ((pyStrip ( "  novalue ").toList).contains '=') = false ∧
    parseCookieFragment ( "  novalue ").toList = none :=
  ⟨by decide, c6_cookie_translator.2.1 ( "  novalue ").toList (by decide)⟩

/-- C5 counterexample: on the claim's example media URL the code
returns filename `"abc123.mp4.mp4"` — the `f"{vid_id}.mp4"` format
string appends `".mp4"` to the query-stripped final path segment — so
the returned filename is not `"abc123.mp4"`. -/
theorem c5_filename_counterexample :
    (resolve_direct_mp4 "https://r/reel/1/"
        (.response 200
          "<meta property=\"og:video\" content=\"https://x/abc123.mp4?sig=zzz\">")
        (.error ())).1 =
      .ok ⟨ "https://r/reel/1/", some "https://x/abc123.mp4?sig=zzz",
            some "abc123.mp4.mp4", none⟩ ∧
    suggestedFilename "https://x/abc123.mp4?sig=zzz" ≠ "abc123.mp4" := by
  refine ⟨?_, ?_⟩ <;> decide

/-- C5 (amended): for every successful resolution the suggested
filename is derived from the resolved media URL's final path segment
with any query string stripped, with the suffix `".mp4"` appended; in
particular for media URL `"https://x/abc123.mp4?sig=zzz"` the filename
is exactly `"abc123.mp4.mp4"`. -/
theorem c5_filename_derivation (url : String) (resp : HttpResponse)
    (rendered : Except Unit String) (out : ResolveOut)
    (h : (resolve_direct_mp4 url resp rendered).1 = .ok out) :
    (∃ mp4, out.mp4_url = some mp4 ∧
      out.filename = some (suggestedFilename mp4)) ∧
    suggestedFilename "https://x/abc123.mp4?sig=zzz" = "abc123.mp4.mp4" := by
  refine ⟨?_, by decide⟩
  rcases resolve_ok_inv url resp rendered out h with ⟨mp4, rfl⟩
  exact ⟨mp4, rfl, rfl⟩

/-- C5 witness: the amended statement applied at a concrete successful
resolution. -/
theorem c5_filename_derivation_witness :
    (resolve_direct_mp4 "u" (.response 200
        "<meta property=\"og:video\" content=\"https://x/v.mp4?s=1\">")
        (.error ())).1 =
      .ok ⟨ "u", some "https://x/v.mp4?s=1", some "v.mp4.mp4", none⟩ ∧
    ((∃ mp4, (ResolveOut.mk "u" (some "https://x/v.mp4?s=1")
        (some "v.mp4.mp4") none).mp4_url = some mp4 ∧
      (ResolveOut.mk "u" (some "https://x/v.mp4?s=1")
        (some "v.mp4.mp4") none).filename = some (suggestedFilename mp4)) ∧
     suggestedFilename "https://x/abc123.mp4?sig=zzz" = "abc123.mp4.mp4") :=
  ⟨by decide,
   c5_filename_derivation "u" (.response 200
      "<meta property=\"og:video\" content=\"https://x/v.mp4?s=1\">")
     (.error ()) _ (by decide)⟩

/-- C4: for every input, a fast-path failure with status ≥ 400
(UpstreamError), a transport failure, or a fast-path success whose
extraction yields nothing, each make the rendered-page resolver run
exactly once; a fast-path success whose extraction yields a URL makes
it never run and the result is returned immediately. -/
theorem c4_orchestrator_fallback (url : String) (rendered : Except Unit String) :
    (∀ status body, 400 ≤ status →
      (resolve_direct_mp4 url (.response status body) rendered).2 = 1) ∧
    ((resolve_direct_mp4 url .transportFailure rendered).2 = 1) ∧
    (∀ status body, status < 400 → extract_og_video body = none →
      (resolve_direct_mp4 url (.response status body) rendered).2 = 1) ∧
    (∀ status body mp4, status < 400 → extract_og_video body = some mp4 →
      (resolve_direct_mp4 url (.response status body) rendered).2 = 0 ∧
      (resolve_direct_mp4 url (.response status body) rendered).1 =
        .ok ⟨url, some mp4, some (suggestedFilename mp4), none⟩) := by
  have hrend : ∀ (resp : HttpResponse),
      (match http_get resp with
        | HttpResult.ok html => extract_og_video html
        | _ => none) = none →
      (resolve_direct_mp4 url resp rendered).2 = 1 := by
    intro resp hnone
    cases hr : rendered with
    | error e => simp [resolve_direct_mp4, hnone, hr]
    | ok html2 =>
      cases he2 : extract_og_video html2 with
      | some mp42 => simp [resolve_direct_mp4, hnone, hr, he2]
      | none => simp [resolve_direct_mp4, hnone, hr, he2]
  refine ⟨?_, ?_, ?_, ?_⟩
  · intro status body hs
    refine hrend _ ?_
    have hg : http_get (.response status body) = .upstreamError status := by
      simp [http_get, hs]
    rw [hg]
  · exact hrend _ rfl
  · intro status body hs he
    refine hrend _ ?_
    have hg : http_get (.response status body) = .ok body := by
      simp [http_get]
      omega
    rw [hg]
    exact he
  · intro status body mp4 hs he
    have hg : http_get (.response status body) = .ok body := by
      simp [http_get]
      omega
    constructor
    · simp [resolve_direct_mp4, hg, he]
    · simp [resolve_direct_mp4, hg, he]

/-- C4 witness: the theorem applied at concrete inputs on all four
branches. -/
theorem c4_orchestrator_fallback_witness :
    (400 ≤ 404 ∧
      (resolve_direct_mp4 "u" (.response 404 "gone") (.ok "nope")).2 = 1) ∧
    ((resolve_direct_mp4 "u" .transportFailure (.ok "nope")).2 = 1) ∧
    (200 < 400 ∧ extract_og_video "plain page" = none ∧
      (resolve_direct_mp4 "u" (.response 200 "plain page") (.ok "nope")).2 = 1) ∧
    (200 < 400 ∧
      extract_og_video "<meta property=\"og:video\" content=\"https://x/v.mp4\">" =
        some "https://x/v.mp4" ∧
      (resolve_direct_mp4 "u"
        (.response 200 "<meta property=\"og:video\" content=\"https://x/v.mp4\">")
        (.ok "nope")).2 = 0) :=
  ⟨⟨by decide, (c4_orchestrator_fallback "u" (.ok "nope")).1 404 "gone" (by decide)⟩,
   (c4_orchestrator_fallback "u" (.ok "nope")).2.1,
   ⟨by decide, by decide,
    (c4_orchestrator_fallback "u" (.ok "nope")).2.2.1 200 "plain page"
      (by decide) (by decide)⟩,
   ⟨by decide, by decide,
    ((c4_orchestrator_fallback "u" (.ok "nope")).2.2.2 200
      "<meta property=\"og:video\" content=\"https://x/v.mp4\">"
      "https://x/v.mp4" (by decide) (by decide)).1⟩⟩

/-- C9: resolution never yields a partial or ambiguous success — every
returned result has a populated `mp4_url`, with the filename derived
from it and the title absent; and when neither the fast path nor the
rendered path yields an extractable media URL, the call fails with an
error. -/
theorem c9_no_partial_success (url : String) (resp : HttpResponse)
    (rendered : Except Unit String) :
    (∀ out, (resolve_direct_mp4 url resp rendered).1 = .ok out →
      ∃ mp4, out.mp4_url = some mp4 ∧
        out.filename = some (suggestedFilename mp4) ∧ out.title = none) ∧
    ((∀ body, http_get resp = .ok body → extract_og_video body = none) →
      (∀ html2, rendered = .ok html2 → extract_og_video html2 = none) →
      ∃ detail, (resolve_direct_mp4 url resp rendered).1 = .error detail) := by
  constructor
  · intro out h
    rcases resolve_ok_inv url resp rendered out h with ⟨mp4, rfl⟩
    exact ⟨mp4, rfl, rfl, rfl⟩
  · intro hfast hrendered
    have hnone : (match http_get resp with
        | HttpResult.ok html => extract_og_video html
        | _ => none) = none := by
      cases hg : http_get resp with
      | ok body => exact hfast body hg
      | upstreamError st => rfl
      | transportError => rfl
    cases hr : rendered with
    | error e =>
      exact ⟨"navigation failure", by simp [resolve_direct_mp4, hnone, hr]⟩
    | ok html2 =>
      have he2 := hrendered html2 hr
      exact ⟨"Could not resolve mp4_url from reel page",
        by simp [resolve_direct_mp4, hnone, hr, he2]⟩

/-- C9 witness: the theorem applied where both paths yield nothing. -/
theorem c9_no_partial_success_witness :
    ∃ detail,
      (resolve_direct_mp4 "u" (.response 200 "plain") (.ok "plain2")).1 =
        .error detail :=
  (c9_no_partial_success "u" (.response 200 "plain") (.ok "plain2")).2
    (fun body hb => by
      rw [show http_get (.response 200 "plain") = .ok "plain" from rfl] at hb
      injection hb with hb2
      rw [← hb2]
      decide)
    (fun html2 hh => by
      injection hh with hh2
      rw [← hh2]
      decide)

/-- C10: a configured maximum of exactly 0 is falsy in the Python cap
test, so it behaves as no cap at all: the cap predicate never fires,
harvesting and the whole collection loop behave identically to an
absent maximum (in particular collection does not return an empty
result immediately but runs to idle-limit termination), and a concrete
run with `max = 0` returns all six discovered links. -/
theorem c10_zero_max_no_cap :
    (∀ n, capReached (some 0) n = false) ∧
    (∀ (hrefs seen : List String) (new : Nat),
      harvest (some 0) seen new hrefs = harvest none seen new hrefs) ∧
    (∀ (rounds : List (List String)) (seen : List String) (idle : Nat),
      collectLoop (some 0) seen idle rounds = collectLoop none seen idle rounds) ∧
    collectLoop (some 0) [] 0
        ([[ "h/reel/a", "h/reel/b", "h/reel/c", "h/reel/d", "h/reel/e",
            "h/reel/f"]] ++ List.replicate 15 []) =
      .done [ "h/reel/a/", "h/reel/b/", "h/reel/c/", "h/reel/d/", "h/reel/e/",
              "h/reel/f/"] := by
  have hcap0 : ∀ n, capReached (some 0) n = false := fun n => rfl
  have hcapn : ∀ n, capReached none n = false := fun n => rfl
  have hharv : ∀ (hrefs seen : List String) (new : Nat),
      harvest (some 0) seen new hrefs = harvest none seen new hrefs := by
    intro hrefs
    induction hrefs with
    | nil => intro seen new; rfl
    | cons href rest ih =>
      intro seen new
      rw [harvest_cons, harvest_cons]
      by_cases h1 : hasReelMarker href
      · simp only [if_pos h1]
        by_cases h2 : canonReel href ∈ seen
        · simp only [if_pos h2]; exact ih seen new
        · simp only [if_neg h2]
          rw [if_neg (by simp [hcap0]), if_neg (by simp [hcapn])]
          exact ih _ _
      · simp only [if_neg h1]; exact ih seen new
  refine ⟨hcap0, hharv, ?_, by decide⟩
  intro rounds
  induction rounds with
  | nil => intro seen idle; rfl
  | cons hrefs rest ih =>
    intro seen idle
    rw [collectLoop_cons, collectLoop_cons, hharv hrefs seen 0,
      hcap0 ((harvest none seen 0 hrefs).1.length),
      hcapn ((harvest none seen 0 hrefs).1.length)]
    by_cases hi : 15 ≤ (if (harvest none seen 0 hrefs).2.1 = 0 then idle + 1 else 0)
    · simp only [if_pos hi, Bool.false_eq_true, if_false]
    · simp only [if_neg hi, Bool.false_eq_true, if_false]
      exact ih _ _

/-- C1: with a configured maximum of 5, as soon as the 5th distinct
canonical reel link is harvested in some round, collection terminates
with exactly those 5 results: the remaining links of that round
(`extra`) are never processed and no further scroll round happens (the
outcome is the same for any continuations `rest` and `rest2`). -/
theorem c1_cap_termination (pre rest rest2 : List (List String))
    (hrefs extra : List String) (seen : List String) (idle : Nat)
    (hpre : collectLoop (some 5) [] 0 pre = .ranOut seen idle)
    (hfive : 5 ≤ (harvest (some 5) seen 0 hrefs).1.length) :
    ∃ out, out.length = 5 ∧
      collectLoop (some 5) [] 0 (pre ++ (hrefs ++ extra) :: rest) = .done out ∧
      collectLoop (some 5) [] 0 (pre ++ (hrefs ++ extra) :: rest2) = .done out := by
  have hcapf : capReached (some 5) seen.length = false := by
    rcases collectLoop_ranOut_cap (some 5) pre [] 0 seen idle hpre with ⟨h1, _⟩ | h2
    · subst h1; rfl
    · exact h2
  have hlt : (seen.length : Int) < 5 :=
    (capReached_false_iff 5 (by omega) _).mp hcapf
  have hfive' : (5 : Int) ≤ ((harvest (some 5) seen 0 hrefs).1.length : Int) := by
    exact_mod_cast hfive
  have hexact := harvest_cap_exact 5 (by omega) hrefs seen 0 hlt hfive'
  have hext := harvest_break_append (some 5) hrefs extra seen 0 hexact.2
  have hlen5 : (harvest (some 5) seen 0 hrefs).1.length = 5 := by
    exact_mod_cast hexact.1
  have hcapt : capReached (some 5)
      (harvest (some 5) seen 0 (hrefs ++ extra)).1.length = true := by
    rw [hext, hlen5]
    rfl
  refine ⟨(harvest (some 5) seen 0 hrefs).1, hlen5, ?_, ?_⟩
  · rw [collectLoop_append_ranOut (some 5) pre ((hrefs ++ extra) :: rest)
      [] 0 seen idle hpre]
    rw [collectLoop_cons, if_pos hcapt, hext]
  · rw [collectLoop_append_ranOut (some 5) pre ((hrefs ++ extra) :: rest2)
      [] 0 seen idle hpre]
    rw [collectLoop_cons, if_pos hcapt, hext]

/-- C1 witness: the theorem applied to a round of six fresh links, with
one unprocessed trailing link and differing continuations. -/
theorem c1_cap_termination_witness :
    collectLoop (some 5) [] 0 [] = .ranOut [] 0 ∧
    5 ≤ (harvest (some 5) [] 0
      [ "h/reel/a", "h/reel/b", "h/reel/c", "h/reel/d", "h/reel/e",
        "h/reel/f"]).1.length ∧
    ∃ out, out.length = 5 ∧
      collectLoop (some 5) [] 0
        ([] ++ ([ "h/reel/a", "h/reel/b", "h/reel/c", "h/reel/d", "h/reel/e",
                  "h/reel/f"] ++ [ "h/reel/g"]) :: [[ "h/reel/z"]]) = .done out ∧
      collectLoop (some 5) [] 0
        ([] ++ ([ "h/reel/a", "h/reel/b", "h/reel/c", "h/reel/d", "h/reel/e",
                  "h/reel/f"] ++ [ "h/reel/g"]) :: []) = .done out :=
  ⟨rfl, by decide,
   c1_cap_termination [] [[ "h/reel/z"]] []
     [ "h/reel/a", "h/reel/b", "h/reel/c", "h/reel/d", "h/reel/e", "h/reel/f"]
     [ "h/reel/g"] [] 0 rfl (by decide)⟩

/-- C2: if, from a live loop state with idle counter 0, 15 consecutive
rounds each harvest zero previously-unseen links, the loop terminates
successfully with the set collected so far — regardless of what later
rounds would have yielded — without having reached a configured
maximum; and any round that adds at least one new link resets the idle
counter to zero. -/
theorem c2_idle_termination (m : Option Int) (seen : List String)
    (rounds rest : List (List String))
    (hlen : rounds.length = 15)
    (hidle : ∀ r ∈ rounds, (harvest m seen 0 r).2.1 = 0)
    (hcap : capReached m seen.length = false) :
    (collectLoop m seen 0 (rounds ++ rest) = .done seen ∧
      ∀ k : Int, m = some k → 0 < k → (seen.length : Int) < k) ∧
    (∀ (idle : Nat) (hrefs2 : List String) (rest2 : List (List String)),
      (harvest m seen 0 hrefs2).2.1 ≠ 0 →
      capReached m (harvest m seen 0 hrefs2).1.length = false →
      collectLoop m seen idle (hrefs2 :: rest2) =
        collectLoop m (harvest m seen 0 hrefs2).1 0 rest2) := by
  refine ⟨⟨?_, ?_⟩, ?_⟩
  · refine collect_idle_run m seen rounds rest 0 ?_ (by omega) hidle hcap
    intro hnil
    rw [hnil] at hlen
    exact absurd hlen (by decide)
  · intro k hk hkpos
    subst hk
    exact (capReached_false_iff k (by omega) _).mp hcap
  · intro idle hrefs2 rest2 hnew hcap2
    rw [collectLoop_cons]
    rw [if_neg (by simp [hcap2])]
    rw [if_neg hnew]
    rw [if_neg (by omega : ¬ (15 ≤ 0))]

/-- C2 witness: the theorem applied to a state holding one link, with
15 rounds that re-offer only that link. -/
theorem c2_idle_termination_witness :
    (List.replicate 15 [ "h/reel/x"]).length = 15 ∧
    (∀ r ∈ List.replicate 15 [ "h/reel/x"],
      (harvest (some 3) [ "h/reel/x/"] 0 r).2.1 = 0) ∧
    capReached (some 3) ([ "h/reel/x/"] : List String).length = false ∧
    (collectLoop (some 3) [ "h/reel/x/"] 0
        (List.replicate 15 [ "h/reel/x"] ++ [[ "h/reel/y"]]) =
      .done [ "h/reel/x/"] ∧
      ∀ k : Int, (some 3 : Option Int) = some k → 0 < k →
        (([ "h/reel/x/"] : List String).length : Int) < k) :=
  ⟨by decide, by decide, by decide,
   (c2_idle_termination (some 3) [ "h/reel/x/"]
      (List.replicate 15 [ "h/reel/x"]) [[ "h/reel/y"]]
      (by decide) (by decide) (by decide)).1⟩

/-- C3: for every pair of terminated runs, the final output (the
sorted collected set) is lexicographically sorted and duplicate-free;
its length equals the number of distinct canonical links collected
(the collected set is duplicate-free and consists only of canonical
forms of harvested links), and is capped by a configured positive
maximum; and the output depends only on the collected set, not on
discovery order — runs collecting permutations of the same set print
identically. -/
theorem c3_output_sorted_dedup (m : Option Int)
    (rounds rounds2 : List (List String)) (s s2 : List String)
    (h : collectLoop m [] 0 rounds = .done s)
    (h2 : collectLoop m [] 0 rounds2 = .done s2) :
    List.Sorted (· ≤ ·) (collectOutput s) ∧
    (collectOutput s).Nodup ∧
    (collectOutput s).length = s.length ∧
    s.Nodup ∧
    (∀ x, x ∈ collectOutput s ↔ x ∈ s) ∧
    (∀ x, x ∈ s →
      ∃ y, y ∈ rounds.flatten ∧ hasReelMarker y = true ∧ canonReel y = x) ∧
    (∀ k : Int, m = some k → 0 < k → (s.length : Int) ≤ k) ∧
    (List.Perm s s2 → collectOutput s = collectOutput s2) := by
  have hperm : List.Perm (collectOutput s) s := List.perm_insertionSort _ s
  have hnodup : s.Nodup := by
    have hh := collect_nodup m rounds [] 0 List.nodup_nil
    rw [h] at hh
    exact hh
  refine ⟨List.sorted_insertionSort _ s, hperm.symm.nodup hnodup,
    hperm.length_eq, hnodup, fun x => hperm.mem_iff, ?_, ?_, ?_⟩
  · intro x hx
    have hm := collect_mem m rounds [] 0 x (by rw [h]; exact hx)
    rcases hm with hin | hex
    · exact absurd hin (List.not_mem_nil x)
    · exact hex
  · intro k hk hkpos
    subst hk
    have hl := collect_length_le k hkpos rounds [] 0 (by simpa using hkpos)
    rw [h] at hl
    exact hl
  · intro hp
    exact List.eq_of_perm_of_sorted
      (hperm.trans (hp.trans (List.perm_insertionSort _ s2).symm))
      (List.sorted_insertionSort _ s)
      (List.sorted_insertionSort _ s2)

/-- C3 witness: the theorem applied to two runs that discover the same
two links in opposite orders and terminate via the idle limit. -/
theorem c3_output_sorted_dedup_witness :
    collectLoop none [] 0
        ([[ "h/reel/b", "h/reel/a"]] ++ List.replicate 15 []) =
      .done [ "h/reel/b/", "h/reel/a/"] ∧
    collectLoop none [] 0
        ([[ "h/reel/a"], [ "h/reel/b"]] ++ List.replicate 15 []) =
      .done [ "h/reel/a/", "h/reel/b/"] ∧
    (List.Sorted (· ≤ ·) (collectOutput [ "h/reel/b/", "h/reel/a/"]) ∧
     (collectOutput [ "h/reel/b/", "h/reel/a/"]).Nodup ∧
     (collectOutput [ "h/reel/b/", "h/reel/a/"]).length =
       ([ "h/reel/b/", "h/reel/a/"] : List String).length ∧
     ([ "h/reel/b/", "h/reel/a/"] : List String).Nodup ∧
     (∀ x, x ∈ collectOutput [ "h/reel/b/", "h/reel/a/"] ↔
       x ∈ ([ "h/reel/b/", "h/reel/a/"] : List String)) ∧
     (∀ x, x ∈ ([ "h/reel/b/", "h/reel/a/"] : List String) →
       ∃ y, y ∈ ([[ "h/reel/b", "h/reel/a"]] ++
           List.replicate 15 ([] : List String)).flatten ∧
         hasReelMarker y = true ∧ canonReel y = x) ∧
     (∀ k : Int, (none : Option Int) = some k → 0 < k →
       ((([ "h/reel/b/", "h/reel/a/"] : List String)).length : Int) ≤ k) ∧
     (List.Perm ([ "h/reel/b/", "h/reel/a/"] : List String)
        [ "h/reel/a/", "h/reel/b/"] →
       collectOutput [ "h/reel/b/", "h/reel/a/"] =
         collectOutput [ "h/reel/a/", "h/reel/b/"])) :=
  ⟨by decide, by decide,
   c3_output_sorted_dedup none
     ([[ "h/reel/b", "h/reel/a"]] ++ List.replicate 15 [])
     ([[ "h/reel/a"], [ "h/reel/b"]] ++ List.replicate 15 [])
     [ "h/reel/b/", "h/reel/a/"] [ "h/reel/a/", "h/reel/b/"]
     (by decide) (by decide)⟩

/-- C8: on every exit path of the rendered-page resolver and the reel
collector — success, `goto` timeout, or an engine failure at the
content read, the harvest eval, or the scroll of any round — the
browser session (context and browser) is released exactly once before
the result or error propagates: nothing stays open, no resource is
closed twice, and the `with`-scope teardown at the end of the trace
releases whatever the skipped explicit closes left open. -/
theorem c8_session_released_once :
    (∀ (has_cookies : Bool) (path : FetchExit),
      releasedExactlyOnce (fetchTrace has_cookies path) = true) ∧
    (∀ (has_cookies : Bool) (path : CollectExit),
      releasedExactlyOnce (collectTrace has_cookies path) = true) := by
  constructor
  · intro c path
    cases c <;> cases path <;> decide
  · intro c path
    cases path with
    | gotoFailure => cases c <;> decide
    | success k =>
      cases c <;>
        simp only [collectTrace, sessionSetup, List.append_assoc,
          List.cons_append, List.nil_append, List.foldl_append,
          foldl_roundEvs, releasedExactlyOnce, List.foldl_cons,
          List.foldl_nil] <;>
        decide
    | evalFailure k =>
      cases c <;>
        simp only [collectTrace, sessionSetup, List.append_assoc,
          List.cons_append, List.nil_append, List.foldl_append,
          foldl_roundEvs, releasedExactlyOnce, List.foldl_cons,
          List.foldl_nil] <;>
        decide
    | scrollFailure k =>
      cases c <;>
        simp only [collectTrace, sessionSetup, List.append_assoc,
          List.cons_append, List.nil_append, List.foldl_append,
          foldl_roundEvs, releasedExactlyOnce, List.foldl_cons,
          List.foldl_nil] <;>
        decide

end ReelsResolver
